import Mathlib

/-!
Verification of the bits-per-character line scorer (`score.py`).

The script builds, for each corpus line, a linear unweighted acceptor,
intersects it with a weighted language-model automaton, reads off the
backward shortest distance from the lattice start state, converts the
cost from nats to bits and divides by the symbol count.  The automaton
primitives it calls (`pynini.accep`, `pynini.intersect`,
`pynini.shortestdistance`, string compilation) live in an external
library; they are modelled here from the specification's semantics.
Costs are tropical (min-plus) weights, modelled as exact rationals;
the final floating-point arithmetic is idealised over the reals.
-/

namespace ScorePy

/-- Python-level exceptions that can escape the functions of the script:
the script's own `Error` (composition failure), `ZeroDivisionError`,
`AssertionError`, the library's string-compilation failure raised by
`pynini.accep`, and the filesystem/parse errors raised when loading the
model or a symbol table. -/
inductive PyErr where
  | compositionFailure
  | zeroDivision
  | assertionFailed
  | stringCompilation
  | fileNotFound
  deriving DecidableEq

/-- One transition of a weighted finite-state machine: input label,
output label, tropical weight (a negative-log cost), target state. -/
structure Arc where
  ilabel : Nat
  olabel : Nat
  weight : ℚ
  nextstate : Nat
  deriving DecidableEq

/-- A weighted finite-state machine.  `arcs[q]` is the list of outgoing
arcs of state `q`; `finals[q]` is the final weight of `q` (`none` means
not final, i.e. final weight Zero); `start = none` models
`NO_STATE_ID`. -/
structure WFst where
  start : Option Nat
  arcs : List (List Arc)
  finals : List (Option ℚ)
  deriving DecidableEq

/-- `num_states()` of a machine. -/
def numStates (f : WFst) : Nat := f.arcs.length

/-- Outgoing arcs of state `q` (empty for an out-of-range state). -/
def arcsOf (f : WFst) (q : Nat) : List Arc := f.arcs.getD q []

/-- Final weight of state `q` (`none` for a non-final or out-of-range
state). -/
def finalOf (f : WFst) (q : Nat) : Option ℚ := f.finals.getD q none

/-- Modelled from the spec: the arc list of the linear-chain acceptor of
a symbol sequence, one state per position; state `i` carries a single
arc labelled with the `i`-th symbol to state `i+1`, and the last state
has no arcs. -/
def chainArcs : Nat → List Nat → List (List Arc)
  | _, [] => [[]]
  | i, s :: rest => [⟨s, s, 0, i + 1⟩] :: chainArcs (i + 1) rest

/-- Modelled from the spec: `pynini.accep` on an (escaped) line — an
ephemeral unweighted linear-chain acceptor with `N+1` states for an
`N`-symbol line, representing exactly one accepted string; only the
last state is final, with weight One. -/
def accep (syms : List Nat) : WFst where
  start := some 0
  arcs := chainArcs 0 syms
  finals := syms.map (fun _ => none) ++ [some 0]

/-- Modelled from the spec: the `ACCEPTOR` property — every arc has
equal input and output labels. -/
def isAcceptorProp (f : WFst) : Bool :=
  f.arcs.all fun as => as.all fun a => a.ilabel == a.olabel

/-- Modelled from the spec: the `UNWEIGHTED` property — every arc weight
and every final weight present is One (tropical 0). -/
def isUnweightedProp (f : WFst) : Bool :=
  (f.arcs.all fun as => as.all fun a => a.weight == 0) &&
  (f.finals.all fun w => w.getD 0 == 0)

/-- Checks the linear-chain shape of an arc table starting at state
index `i`: every non-last state has exactly one arc, to the next state;
the last state has none. -/
def chainCheck : Nat → List (List Arc) → Bool
  | _, [] => false
  | _, [as] => as == []
  | i, as :: rest =>
    (as.length == 1 && as.all fun a => a.nextstate == i + 1) && chainCheck (i + 1) rest

/-- Checks that exactly the last state is final. -/
def finalsCheck : List (Option ℚ) → Bool
  | [] => false
  | [w] => w.isSome
  | w :: rest => w == none && finalsCheck rest

/-- Modelled from the spec: the `STRING` property — the machine is a
linear chain from state 0 accepting exactly one string. -/
def isStringProp (f : WFst) : Bool :=
  f.start == some 0 && chainCheck 0 f.arcs &&
  (f.finals.length == f.arcs.length) && finalsCheck f.finals

/-- The property check of `_bits_per_char`: `string.properties(eprops,
True) == eprops` for `eprops = ACCEPTOR | STRING | UNWEIGHTED`. -/
def checkProps (f : WFst) : Bool :=
  isAcceptorProp f && isStringProp f && isUnweightedProp f

/-- Arcs of a product state: pairs of arcs with matching labels; weights
add (tropical times), targets are paired via `i * n2 + q` encoding. -/
def prodArcs (n2 : Nat) (as bs : List Arc) : List Arc :=
  as.flatMap fun a => bs.filterMap fun b =>
    if a.ilabel == b.ilabel then
      some ⟨a.ilabel, b.olabel, a.weight + b.weight, a.nextstate * n2 + b.nextstate⟩
    else none

/-- Modelled from the spec: the raw product machine of two acceptors —
paths consistent with both machines, with costs added.  State `(i, q)`
is encoded as `i * numStates lm + q`. -/
def rawProduct (s lm : WFst) : WFst :=
  let n2 := numStates lm
  { start :=
      match s.start, lm.start with
      | some a, some b => some (a * n2 + b)
      | _, _ => none
    arcs := (List.range (numStates s * n2)).map fun k =>
      prodArcs n2 (arcsOf s (k / n2)) (arcsOf lm (k % n2))
    finals := (List.range (numStates s * n2)).map fun k =>
      match finalOf s (k / n2), finalOf lm (k % n2) with
      | some u, some v => some (u + v)
      | _, _ => none }

/-- Minimum of two extended costs, `none` playing +infinity (tropical
Zero). -/
def minOpt : Option ℚ → Option ℚ → Option ℚ
  | none, b => b
  | some a, none => some a
  | some a, some b => some (min a b)

/-- Minimum cost of an accepting path of at most `fuel` arcs from state
`q`. -/
def dist (f : WFst) : Nat → Nat → Option ℚ
  | 0, q => finalOf f q
  | fuel + 1, q =>
    (arcsOf f q).foldl
      (fun acc a => minOpt acc ((dist f fuel a.nextstate).map fun c => a.weight + c))
      (finalOf f q)

/-- Modelled from the spec: `pynini.shortestdistance(·, reverse=True)`
read at state `q` — the minimum total cost over accepting paths from
`q`.  The fuel `numStates f` is exact for the acyclic lattices arising
as chain-times-model products, the only machines the script applies it
to. -/
def shortestdistance (f : WFst) (q : Nat) : Option ℚ :=
  dist f (numStates f) q

/-- Modelled from the spec: `pynini.intersect` with its default trimming
(`connect`) — the product machine, with the start state removed (the
machine emptied, `start() == NO_STATE_ID`) when no accepting path exists
from it. -/
def intersect (s lm : WFst) : WFst :=
  if ((rawProduct s lm).start.bind (shortestdistance (rawProduct s lm))).isSome
  then rawProduct s lm
  else { rawProduct s lm with start := none }

/-- The constant `M_LN2 = math.log(2)` of the script. -/
noncomputable def M_LN2 : ℝ := Real.log 2

/-- `_bits_per_char`: asserts the acceptor properties, intersects with
the language model, raises `Error` on composition failure, otherwise
divides the start state's backward shortest distance by `ln 2` and by
`num_states() - 1`.  A `none` payload stands for the float `inf`;
division by a zero symbol count raises `ZeroDivisionError`. -/
noncomputable def bits_per_char (string lm : WFst) : Except PyErr (Option ℝ) :=
  if checkProps string then
    match (intersect string lm).start with
    | none => .error .compositionFailure
    | some q0 =>
      if (numStates string : ℤ) - 1 = 0 then .error .zeroDivision
      else .ok ((shortestdistance (intersect string lm) q0).map
        fun c => ((c : ℝ) / M_LN2) / (((numStates string : ℤ) - 1 : ℤ) : ℝ))
  else .error .assertionFailed

/-- The `try`/`except Error` of `_score`: a composition failure is
swallowed, leaving the initial `float("inf")` value; every other
outcome, normal or exceptional, passes through. -/
def tryScore (r : Except PyErr (Option ℝ)) : Except PyErr (Option ℝ) :=
  match r with
  | .error .compositionFailure => .ok none
  | r => r

/-- Python whitespace as stripped by `str.rstrip`: the ASCII whitespace
characters `\t \n \v \f \r` and space, the file/group/record/unit
separators `\x1c`-`\x1f`, next line `\x85`, no-break space `\xa0`, and
the Unicode space, line and paragraph separators (U+1680,
U+2000-U+200A, U+2028, U+2029, U+202F, U+205F, U+3000). -/
def isPySpace (c : Char) : Bool :=
  let n := c.toNat
  (decide (0x09 ≤ n) && decide (n ≤ 0x0d)) ||
  (decide (0x1c ≤ n) && decide (n ≤ 0x1f)) ||
  n == 0x20 || n == 0x85 || n == 0xa0 || n == 0x1680 ||
  (decide (0x2000 ≤ n) && decide (n ≤ 0x200a)) ||
  n == 0x2028 || n == 0x2029 || n == 0x202f || n == 0x205f || n == 0x3000

/-- `line.rstrip()`: drop all trailing whitespace. -/
def rstrip (s : List Char) : List Char :=
  (s.reverse.dropWhile isPySpace).reverse

/-- A loaded symbol table: text tokens mapped to integer symbol ids. -/
def SymTable : Type := List (List Char × Nat)

/-- The resolved token type: the strings "byte" and "utf8" pass through
unchanged; anything else is a loaded symbol table. -/
inductive TokenType where
  | byte
  | utf8
  | symbols (table : SymTable)

/-- Modelled from the spec: the UTF-8 encoding of one codepoint, the
byte-mode symbols of a character. -/
def utf8Bytes (c : Char) : List Nat :=
  let n := c.toNat
  if n < 0x80 then [n]
  else if n < 0x800 then [0xC0 + n / 0x40, 0x80 + n % 0x40]
  else if n < 0x10000 then
    [0xE0 + n / 0x1000, 0x80 + n / 0x40 % 0x40, 0x80 + n % 0x40]
  else
    [0xF0 + n / 0x40000, 0x80 + n / 0x1000 % 0x40, 0x80 + n / 0x40 % 0x40, 0x80 + n % 0x40]

/-- Byte-mode tokenisation: the UTF-8 bytes of the line. -/
def tokenizeByte : List Char → List Nat
  | [] => []
  | c :: rest => utf8Bytes c ++ tokenizeByte rest

/-- Splits a line into whitespace-separated tokens (for the
symbol-table token type). -/
def splitWsAux : List Char → List Char → List (List Char)
  | [], acc => if acc.isEmpty then [] else [acc.reverse]
  | c :: rest, acc =>
    if c == ' ' || c == '\t' then
      (if acc.isEmpty then id else (acc.reverse :: ·)) (splitWsAux rest [])
    else splitWsAux rest (c :: acc)

/-- Looks a token up in a symbol table. -/
def lookupSym (tbl : SymTable) (tok : List Char) : Option Nat :=
  (tbl.find? fun p => p.1 == tok).map (·.2)

/-- Modelled from the spec: the net effect of `pynini.escape` followed
by the string compiler of `pynini.accep` — the line's own symbol
sequence under the resolved token type (escaping protects the special
characters, so every character is taken literally).  `none` models a
string-compilation failure (a token absent from the symbol table),
which `pynini.accep` raises as an exception. -/
def tokenize : TokenType → List Char → Option (List Nat)
  | .byte, line => some (tokenizeByte line)
  | .utf8, line => some (line.map Char.toNat)
  | .symbols tbl, line => (splitWsAux line []).mapM (lookupSym tbl)

/-- `_score`: right-strips the line, builds the acceptor, scores it
against the model, swallowing only composition failures, and returns
the (possibly infinite) score paired with the stripped line. -/
noncomputable def score (lm : WFst) (token_type : TokenType) (line : List Char) :
    Except PyErr (Option ℝ × List Char) :=
  match tokenize token_type (rstrip line) with
  | none => .error .stringCompilation
  | some syms =>
    (tryScore (bits_per_char (accep syms) lm)).map fun b => (b, rstrip line)

/-- The per-line results of a batch of scoring calls, in submission
order (`pool.imap` preserves order). -/
noncomputable def scoreLines (lm : WFst) (tt : TokenType) (lines : List (List Char)) :
    List (Except PyErr (Option ℝ × List Char)) :=
  lines.map (score lm tt)

/-- The output loop of `main`: scores each corpus line in order, skips
the lines whose score is infinite (`math.isinf`), emits a
`(bits_per_char, line)` row for the rest; an uncaught per-line
exception aborts the run. -/
noncomputable def mainRows (lm : WFst) (tt : TokenType) :
    List (List Char) → Except PyErr (List (ℝ × List Char))
  | [] => .ok []
  | l :: rest =>
    match score lm tt l with
    | .error e => .error e
    | .ok (none, _) => mainRows lm tt rest
    | .ok (some v, s) => (mainRows lm tt rest).map fun rs => (v, s) :: rs

/-- `_parse_token_type`: "byte" and "utf8" pass through; any other
string is read as a symbol-table path via the given filesystem reader
(`pynini.SymbolTable.read_text`), whose failure propagates. -/
def parse_token_type (read_text : List Char → Except PyErr SymTable)
    (token_type : List Char) : Except PyErr TokenType :=
  if token_type = "byte".toList then .ok .byte
  else if token_type = "utf8".toList then .ok .utf8
  else (read_text token_type).map .symbols

/-- `main`: reads the model, resolves the token type (either failure is
fatal and terminates the run), then drives the scoring loop. -/
noncomputable def mainRun (read_text : List Char → Except PyErr SymTable)
    (read_fst : Except PyErr WFst) (token_type_arg : List Char)
    (corpus : List (List Char)) : Except PyErr (List (ℝ × List Char)) :=
  match read_fst, parse_token_type read_text token_type_arg with
  | .error e, _ => .error e
  | .ok _, .error e => .error e
  | .ok lm, .ok tt => mainRows lm tt corpus

/-- Decidable check that every arc weight and every final weight of a
machine is non-negative — the shape of a genuine language model, whose
weights are negative log-probabilities. -/
def nonnegW (f : WFst) : Bool :=
  (f.arcs.all fun as => as.all fun a => decide (0 ≤ a.weight)) &&
  (f.finals.all fun w => decide (0 ≤ w.getD 0))

/-- A tiny language model over the byte alphabet used as a concrete test
input: one state, accepting, with arcs for `a` (cost 1) and `b`
(cost 2). -/
def lmA : WFst := ⟨some 0, [[⟨97, 97, 1, 0⟩, ⟨98, 98, 2, 0⟩]], [some 0]⟩

/-- A model accepting exactly the empty string (its start state is
final and has no arcs). -/
def lmEps : WFst := ⟨some 0, [[]], [some 0]⟩

/-- A model accepting nothing at all, in particular not the empty
string. -/
def lmNoEps : WFst := ⟨some 0, [[]], [none]⟩

/-- A machine violating the acceptor invariant: its single transition
carries a non-trivial weight, so it is not unweighted. -/
def badFsa : WFst := ⟨some 0, [[⟨97, 97, 1, 1⟩], []], [none, some 0]⟩

@[simp] theorem minOpt_none_left (b : Option ℚ) : minOpt none b = b := by cases b <;> rfl

@[simp] theorem minOpt_some_none (a : ℚ) : minOpt (some a) none = some a := rfl

@[simp] theorem minOpt_some_some (a b : ℚ) : minOpt (some a) (some b) = some (min a b) := rfl

theorem chainArcs_length (syms : List Nat) : ∀ i, (chainArcs i syms).length = syms.length + 1 := by
  induction syms with
  | nil => intro i; rfl
  | cons s rest ih => intro i; simp [chainArcs, ih]

theorem numStates_accep (syms : List Nat) : numStates (accep syms) = syms.length + 1 :=
  chainArcs_length syms 0

theorem chainCheck_chainArcs (syms : List Nat) : ∀ i, chainCheck i (chainArcs i syms) = true := by
  induction syms with
  | nil => intro i; rfl
  | cons s rest ih =>
    intro i
    cases rest with
    | nil => simp [chainArcs, chainCheck]
    | cons t rest2 =>
      have h := ih (i + 1)
      simp only [chainArcs] at h ⊢
      simp [chainCheck, h]

theorem finalsCheck_replicate (n : Nat) :
    finalsCheck (List.replicate n none ++ [some 0]) = true := by
  induction n with
  | zero => rfl
  | succ m ih =>
    cases m with
    | zero => rfl
    | succ k =>
      simp only [List.replicate, List.cons_append] at ih ⊢
      simp only [finalsCheck, ih]
      rfl

theorem chainArcs_all_acceptor (syms : List Nat) :
    ∀ i, ((chainArcs i syms).all fun as => as.all fun a => a.ilabel == a.olabel) = true := by
  induction syms with
  | nil => intro i; rfl
  | cons s rest ih => intro i; simp [chainArcs, List.all_cons, ih]

theorem chainArcs_all_unweighted (syms : List Nat) :
    ∀ i, ((chainArcs i syms).all fun as => as.all fun a => a.weight == 0) = true := by
  induction syms with
  | nil => intro i; rfl
  | cons s rest ih => intro i; simp [chainArcs, List.all_cons, ih]

theorem checkProps_accep (syms : List Nat) : checkProps (accep syms) = true := by
  simp [checkProps, isAcceptorProp, isStringProp, isUnweightedProp, accep,
    chainArcs_all_acceptor, chainArcs_all_unweighted, chainCheck_chainArcs,
    finalsCheck_replicate, chainArcs_length]

theorem intersect_start_some (s lm : WFst) (q0 : Nat)
    (h : (intersect s lm).start = some q0) :
    intersect s lm = rawProduct s lm ∧ (rawProduct s lm).start = some q0 ∧
      (shortestdistance (rawProduct s lm) q0).isSome = true := by
  unfold intersect at h ⊢
  by_cases hb : ((rawProduct s lm).start.bind (shortestdistance (rawProduct s lm))).isSome = true
  · rw [if_pos hb] at h ⊢
    refine ⟨rfl, h, ?_⟩
    rw [h] at hb
    simpa using hb
  · rw [if_neg hb] at h
    simp at h

theorem shortestdistance_intersect_eq (s lm : WFst) (q0 : Nat)
    (h : (intersect s lm).start = some q0) :
    ∃ c, shortestdistance (intersect s lm) q0 = some c := by
  obtain ⟨heq, _, hsome⟩ := intersect_start_some s lm q0 h
  rw [heq]
  exact Option.isSome_iff_exists.mp hsome

theorem bits_per_char_success (syms : List Nat) (lm : WFst) (q0 : Nat) (c : ℚ)
    (hne : syms ≠ []) (hstart : (intersect (accep syms) lm).start = some q0)
    (hcost : shortestdistance (intersect (accep syms) lm) q0 = some c) :
    bits_per_char (accep syms) lm =
      .ok (some (((c : ℝ) / M_LN2) / (syms.length : ℝ))) := by
  have hprops := checkProps_accep syms
  have hns := numStates_accep syms
  have hnz : ¬ ((numStates (accep syms) : ℤ) - 1 = 0) := by
    rw [hns]
    have : 0 < syms.length := List.length_pos.mpr hne
    omega
  unfold bits_per_char
  rw [hprops]
  simp only [if_true, hstart, hcost, if_neg hnz, Option.map_some']
  have : (((numStates (accep syms) : ℤ) - 1 : ℤ) : ℝ) = (syms.length : ℝ) := by
    rw [hns]; push_cast; ring
  rw [this]
  simp

/-- C5: for every input line the acceptor built under the resolved
token type satisfies the `ACCEPTOR`, `STRING` and `UNWEIGHTED`
invariant check, so the assertion in the scorer never fires on the
normal construction path; and when the invariant is violated the scorer
raises an assertion failure which the composition-failure handler does
not swallow. -/
theorem claim_c5 :
    (∀ (tt : TokenType) (line : List Char) (syms : List Nat),
        tokenize tt (rstrip line) = some syms → checkProps (accep syms) = true)
    ∧ (∀ (fsa lm : WFst), checkProps fsa = false →
        bits_per_char fsa lm = .error .assertionFailed)
    ∧ tryScore (.error .assertionFailed) = .error .assertionFailed := by
  refine ⟨fun _ _ syms _ => checkProps_accep syms, fun fsa lm h => ?_, rfl⟩
  unfold bits_per_char
  rw [h]
  rfl

/-- Witness for C5 at a concrete line and a concrete invariant-breaking
machine. -/
theorem claim_c5_witness :
    (tokenize .utf8 (rstrip ['a']) = some [97] ∧ checkProps (accep [97]) = true)
    ∧ (checkProps badFsa = false ∧ bits_per_char badFsa lmA = .error .assertionFailed) :=
  ⟨⟨by decide, claim_c5.1 .utf8 ['a'] [97] (by decide)⟩,
   ⟨by decide, claim_c5.2.1 badFsa lmA (by decide)⟩⟩

/-- C6: for every line of `N` symbols under the resolved token type the
constructed linear acceptor has exactly `N + 1` states, so the divisor
`num_states() - 1` used by the scorer equals the line's true symbol
count `N`. -/
theorem claim_c6 (tt : TokenType) (line : List Char) (syms : List Nat)
    (htok : tokenize tt line = some syms) :
    numStates (accep syms) = syms.length + 1 ∧
      (numStates (accep syms) : ℤ) - 1 = (syms.length : ℤ) := by
  refine ⟨numStates_accep syms, ?_⟩
  rw [numStates_accep]
  push_cast
  ring

/-- Witness for C6 on the two-character line "ab" under the byte token
type. -/
theorem claim_c6_witness :
    tokenize .byte ['a', 'b'] = some [97, 98] ∧
      numStates (accep [97, 98]) = 3 ∧ (numStates (accep [97, 98]) : ℤ) - 1 = 2 := by
  have h := claim_c6 .byte ['a', 'b'] [97, 98] (by decide)
  exact ⟨by decide, by simpa using h.1, by simpa using h.2⟩

/-- C1: for a line of `N ≥ 1` symbols whose composed lattice with the
language model has total minimum cost `C` nats, the line scorer returns
exactly `C / (N * ln 2)` — the cost converted from nats to bits,
divided by the symbol count. -/
theorem claim_c1 (lm : WFst) (tt : TokenType) (line : List Char) (syms : List Nat)
    (q0 : Nat) (c : ℚ)
    (htok : tokenize tt (rstrip line) = some syms) (hne : syms ≠ [])
    (hstart : (intersect (accep syms) lm).start = some q0)
    (hcost : shortestdistance (intersect (accep syms) lm) q0 = some c) :
    score lm tt line =
      .ok (some ((c : ℝ) / ((syms.length : ℝ) * Real.log 2)), rstrip line) := by
  unfold score
  rw [htok]
  show Except.map (fun b => (b, rstrip line)) (tryScore (bits_per_char (accep syms) lm)) = _
  rw [bits_per_char_success syms lm q0 c hne hstart hcost]
  have : ((c : ℝ) / M_LN2) / (syms.length : ℝ) =
      (c : ℝ) / ((syms.length : ℝ) * Real.log 2) := by
    rw [M_LN2, div_div, mul_comm]
  rw [this]
  rfl

/-- Witness for C1: the line "ab" under the utf8 token type against the
concrete model `lmA`, whose lattice has total cost 3. -/
theorem claim_c1_witness :
    tokenize .utf8 (rstrip ['a', 'b']) = some [97, 98] ∧
    (intersect (accep [97, 98]) lmA).start = some 0 ∧
    shortestdistance (intersect (accep [97, 98]) lmA) 0 = some 3 ∧
    score lmA .utf8 ['a', 'b'] =
      .ok (some (((3 : ℚ) : ℝ) / (([97, 98].length : ℝ) * Real.log 2)), rstrip ['a', 'b']) := by
  have hstart : (intersect (accep [97, 98]) lmA).start = some 0 := by
    norm_num [intersect, rawProduct, shortestdistance, dist, accep, chainArcs, arcsOf,
      finalOf, prodArcs, numStates, lmA, List.range_succ, List.filterMap_cons]
  have hcost : shortestdistance (intersect (accep [97, 98]) lmA) 0 = some 3 := by
    norm_num [intersect, rawProduct, shortestdistance, dist, accep, chainArcs, arcsOf,
      finalOf, prodArcs, numStates, lmA, List.range_succ, List.filterMap_cons]
  exact ⟨by decide, hstart, hcost,
    claim_c1 lmA .utf8 ['a', 'b'] [97, 98] 0 3 (by decide) (by decide) hstart hcost⟩

/-- C2: a line whose lattice has no valid start state (composition
failure) produces no error for the caller — the scorer returns the
infinite sentinel — and the corpus driver emits no row for it while
processing of all other lines is unaffected. -/
theorem claim_c2 (lm : WFst) (tt : TokenType) (line : List Char) (syms : List Nat)
    (htok : tokenize tt (rstrip line) = some syms)
    (hfail : (intersect (accep syms) lm).start = none) :
    score lm tt line = .ok (none, rstrip line) ∧
      ∀ pre post, mainRows lm tt (pre ++ line :: post) = mainRows lm tt (pre ++ post) := by
  have hb : bits_per_char (accep syms) lm = .error .compositionFailure := by
    unfold bits_per_char
    rw [checkProps_accep syms]
    simp only [if_true, hfail]
  have hsc : score lm tt line = .ok (none, rstrip line) := by
    unfold score
    rw [htok]
    show Except.map (fun b => (b, rstrip line)) (tryScore (bits_per_char (accep syms) lm)) = _
    rw [hb]
    rfl
  refine ⟨hsc, fun pre post => ?_⟩
  induction pre with
  | nil => simp [mainRows, hsc]
  | cons p rest ih =>
    simp only [List.cons_append, mainRows]
    cases hp : score lm tt p with
    | error e => rfl
    | ok v =>
      obtain ⟨ov, s⟩ := v
      cases ov <;> simp [ih]

/-- Witness for C2: the line "b" against `lmA`, whose alphabet has no
path for symbol 98 from a non-final configuration — here the chain
symbol 99 ("c") has no matching model arc, so composition fails. -/
theorem claim_c2_witness :
    tokenize .byte (rstrip ['c']) = some [99] ∧
    (intersect (accep [99]) lmA).start = none ∧
    score lmA .byte ['c'] = .ok (none, rstrip ['c']) ∧
    mainRows lmA .byte ([['a']] ++ ['c'] :: []) = mainRows lmA .byte ([['a']] ++ []) := by
  have hfail : (intersect (accep [99]) lmA).start = none := by
    norm_num [intersect, rawProduct, shortestdistance, dist, accep, chainArcs, arcsOf,
      finalOf, prodArcs, numStates, lmA, List.range_succ, List.filterMap_cons]
  have h := claim_c2 lmA .byte ['c'] [99] (by decide) hfail
  exact ⟨by decide, hfail, h.1, h.2 [['a']] []⟩

/-- C3 is refuted as stated: on an empty line, when the language model
accepts the empty string, the composed lattice is non-empty, the symbol
count is zero, and the division raises an uncaught `ZeroDivisionError`
— the error does reach the caller. -/
theorem claim_c3_counterexample :
    score lmEps .byte [] = .error .zeroDivision := by
  rfl

/-- Lemma: every token type maps the empty line to the empty symbol
sequence. -/
theorem tokenize_nil (tt : TokenType) : tokenize tt [] = some [] := by
  cases tt <;> rfl

/-- C3 (amended): for an empty (zero-length) input line, if the model
does not accept the empty string then composition fails, the failure is
caught and the line is excluded from output; but if the model accepts
the empty string, an uncaught `ZeroDivisionError` propagates to the
caller. -/
theorem claim_c3_amended (lm : WFst) (tt : TokenType) (line : List Char)
    (hline : rstrip line = []) :
    ((intersect (accep []) lm).start = none → score lm tt line = .ok (none, [])) ∧
    (∀ q0, (intersect (accep []) lm).start = some q0 →
      score lm tt line = .error .zeroDivision) := by
  constructor
  · intro hfail
    have hb : bits_per_char (accep []) lm = .error .compositionFailure := by
      unfold bits_per_char
      rw [checkProps_accep]
      simp only [if_true, hfail]
    unfold score
    rw [hline, tokenize_nil]
    show Except.map (fun b => (b, ([] : List Char)))
      (tryScore (bits_per_char (accep ([] : List Nat)) lm)) = _
    rw [hb]
    rfl
  · intro q0 hstart
    have hb : bits_per_char (accep []) lm = .error .zeroDivision := by
      unfold bits_per_char
      rw [checkProps_accep]
      simp only [if_true, hstart]
      rw [if_pos]
      norm_num [numStates, accep, chainArcs]
    unfold score
    rw [hline, tokenize_nil]
    show Except.map (fun b => (b, ([] : List Char)))
      (tryScore (bits_per_char (accep ([] : List Nat)) lm)) = _
    rw [hb]
    rfl

/-- Witness for C3 (amended): the empty line (a bare newline) is
silently skipped under a model rejecting the empty string, and raises
under a model accepting it. -/
theorem claim_c3_amended_witness :
    rstrip ['\n'] = [] ∧
    (intersect (accep []) lmNoEps).start = none ∧
    score lmNoEps .utf8 ['\n'] = .ok (none, []) ∧
    (intersect (accep []) lmEps).start = some 0 ∧
    score lmEps .utf8 ['\n'] = .error .zeroDivision := by
  have hfail : (intersect (accep []) lmNoEps).start = none := by
    norm_num [intersect, rawProduct, shortestdistance, dist, accep, chainArcs, arcsOf,
      finalOf, prodArcs, numStates, lmNoEps, List.range_succ]
  have hsome : (intersect (accep []) lmEps).start = some 0 := by
    norm_num [intersect, rawProduct, shortestdistance, dist, accep, chainArcs, arcsOf,
      finalOf, prodArcs, numStates, lmEps, List.range_succ]
  exact ⟨by decide, hfail,
    (claim_c3_amended lmNoEps .utf8 ['\n'] (by decide)).1 hfail, hsome,
    (claim_c3_amended lmEps .utf8 ['\n'] (by decide)).2 0 hsome⟩

theorem getD_range_map {α : Type} (n : Nat) (g : Nat → α) (k : Nat) (d : α) :
    ((List.range n).map g).getD k d = if k < n then g k else d := by
  rcases lt_or_ge k n with h | h
  · rw [List.getD_eq_getElem?_getD, List.getElem?_map, List.getElem?_range h, if_pos h]
    rfl
  · rw [List.getD_eq_getElem?_getD, List.getElem?_map,
      List.getElem?_eq_none (by simpa using h), if_neg (not_lt.mpr h)]
    rfl

theorem mem_arcsOf (f : WFst) (q : Nat) (a : Arc) (h : a ∈ arcsOf f q) :
    ∃ as ∈ f.arcs, a ∈ as := by
  unfold arcsOf at h
  rw [List.getD_eq_getElem?_getD] at h
  cases hq : f.arcs[q]? with
  | none => rw [hq] at h; simp at h
  | some as =>
    rw [hq] at h
    exact ⟨as, List.getElem?_mem hq, h⟩

theorem finalOf_some_mem (f : WFst) (q : Nat) (x : ℚ) (h : finalOf f q = some x) :
    some x ∈ f.finals := by
  unfold finalOf at h
  rw [List.getD_eq_getElem?_getD] at h
  cases hq : f.finals[q]? with
  | none => rw [hq] at h; simp at h
  | some w =>
    rw [hq] at h
    simp only [Option.getD_some] at h
    rw [h] at hq
    exact List.getElem?_mem hq

theorem nonnegW_arcs (f : WFst) (h : nonnegW f = true) :
    ∀ q a, a ∈ arcsOf f q → 0 ≤ a.weight := by
  intro q a ha
  obtain ⟨as, hmem, hin⟩ := mem_arcsOf f q a ha
  have h1 := (Bool.and_eq_true _ _).mp h |>.1
  rw [List.all_eq_true] at h1
  have h2 := h1 as hmem
  rw [List.all_eq_true] at h2
  simpa using h2 a hin

theorem nonnegW_finals (f : WFst) (h : nonnegW f = true) :
    ∀ q x, finalOf f q = some x → 0 ≤ x := by
  intro q x hx
  have hmem := finalOf_some_mem f q x hx
  have h1 := (Bool.and_eq_true _ _).mp h |>.2
  rw [List.all_eq_true] at h1
  simpa using h1 (some x) hmem

theorem arcsOf_rawProduct (s lm : WFst) (k : Nat) (a : Arc)
    (h : a ∈ arcsOf (rawProduct s lm) k) :
    ∃ a1 a2 : Arc, (∃ q, a1 ∈ arcsOf s q) ∧ (∃ q, a2 ∈ arcsOf lm q) ∧
      a.weight = a1.weight + a2.weight := by
  unfold arcsOf rawProduct at h
  simp only at h
  rw [getD_range_map] at h
  by_cases hk : k < numStates s * numStates lm
  · rw [if_pos hk] at h
    unfold prodArcs at h
    rw [List.mem_flatMap] at h
    obtain ⟨a1, ha1, hfm⟩ := h
    rw [List.mem_filterMap] at hfm
    obtain ⟨a2, ha2, hif⟩ := hfm
    by_cases hl : a1.ilabel == a2.ilabel
    · rw [if_pos hl] at hif
      injection hif with hif
      refine ⟨a1, a2, ⟨_, ha1⟩, ⟨_, ha2⟩, ?_⟩
      rw [← hif]
    · rw [if_neg hl] at hif
      exact absurd hif (by simp)
  · rw [if_neg hk] at h
    simp at h

theorem finalOf_rawProduct (s lm : WFst) (k : Nat) (x : ℚ)
    (h : finalOf (rawProduct s lm) k = some x) :
    ∃ u v, finalOf s (k / numStates lm) = some u ∧ finalOf lm (k % numStates lm) = some v ∧
      x = u + v := by
  unfold finalOf rawProduct at h
  simp only at h
  rw [getD_range_map] at h
  by_cases hk : k < numStates s * numStates lm
  · rw [if_pos hk] at h
    cases hu : finalOf s (k / numStates lm) with
    | none => rw [hu] at h; simp at h
    | some u =>
      cases hv : finalOf lm (k % numStates lm) with
      | none => rw [hu, hv] at h; simp at h
      | some v =>
        rw [hu, hv] at h
        simp only at h
        injection h with h
        exact ⟨u, v, rfl, rfl, h.symm⟩
  · rw [if_neg hk] at h
    simp at h

theorem foldl_minOpt_nonneg (g : Arc → Option ℚ) :
    ∀ (l : List Arc) (init : Option ℚ),
      (∀ x, init = some x → 0 ≤ x) →
      (∀ a ∈ l, ∀ x, g a = some x → 0 ≤ x) →
      ∀ x, l.foldl (fun acc a => minOpt acc (g a)) init = some x → 0 ≤ x := by
  intro l
  induction l with
  | nil => intro init hi _ x hx; exact hi x hx
  | cons a rest ih =>
    intro init hi hg x hx
    refine ih (minOpt init (g a)) ?_ (fun b hb => hg b (List.mem_cons_of_mem _ hb)) x hx
    intro y hy
    cases hinit : init with
    | none =>
      rw [hinit, minOpt_none_left] at hy
      exact hg a (List.mem_cons_self _ _) y hy
    | some u =>
      cases hga : g a with
      | none =>
        rw [hinit, hga, minOpt_some_none] at hy
        injection hy with hy
        exact hy ▸ hi u hinit
      | some v =>
        rw [hinit, hga, minOpt_some_some] at hy
        injection hy with hy
        rw [← hy]
        exact le_min (hi u hinit) (hg a (List.mem_cons_self _ _) v hga)

theorem dist_nonneg (f : WFst)
    (hA : ∀ q a, a ∈ arcsOf f q → 0 ≤ a.weight)
    (hF : ∀ q x, finalOf f q = some x → 0 ≤ x) :
    ∀ fuel q x, dist f fuel q = some x → 0 ≤ x := by
  intro fuel
  induction fuel with
  | zero => intro q x hx; exact hF q x hx
  | succ n ih =>
    intro q x hx
    unfold dist at hx
    refine foldl_minOpt_nonneg _ _ _ (hF q) ?_ x hx
    intro a ha y hy
    rcases Option.map_eq_some'.mp hy with ⟨z, hz, hzy⟩
    have h1 := ih a.nextstate z hz
    have h2 := hA q a ha
    rw [← hzy]
    linarith

theorem arcsOf_accep_weight (syms : List Nat) (q : Nat) (a : Arc)
    (h : a ∈ arcsOf (accep syms) q) : a.weight = 0 := by
  obtain ⟨as, hmem, hin⟩ := mem_arcsOf _ q a h
  have h1 := chainArcs_all_unweighted syms 0
  rw [List.all_eq_true] at h1
  have h2 := h1 as hmem
  rw [List.all_eq_true] at h2
  simpa using h2 a hin

theorem finalOf_accep (syms : List Nat) (q : Nat) (x : ℚ)
    (h : finalOf (accep syms) q = some x) : x = 0 := by
  have hmem := finalOf_some_mem _ q x h
  unfold accep at hmem
  simp only [List.mem_append, List.mem_map, List.mem_singleton] at hmem
  rcases hmem with ⟨_, _, hc⟩ | hc
  · exact absurd hc (by simp)
  · injection hc.symm with hc
    exact hc.symm

/-- C4: for every non-empty line accepted by the language model (whose
weights, being negative log-probabilities, are non-negative), the
bits-per-character score returned is a finite (non-infinite) and
non-negative value. -/
theorem claim_c4 (lm : WFst) (tt : TokenType) (line : List Char) (syms : List Nat) (q0 : Nat)
    (htok : tokenize tt (rstrip line) = some syms) (hne : syms ≠ [])
    (hw : nonnegW lm = true)
    (hstart : (intersect (accep syms) lm).start = some q0) :
    ∃ r : ℝ, score lm tt line = .ok (some r, rstrip line) ∧ 0 ≤ r := by
  obtain ⟨c, hcost⟩ := shortestdistance_intersect_eq _ lm q0 hstart
  have h0 : (0 : ℚ) ≤ c := by
    obtain ⟨heq, _, _⟩ := intersect_start_some _ lm q0 hstart
    rw [heq] at hcost
    refine dist_nonneg (rawProduct (accep syms) lm) ?_ ?_ _ q0 c hcost
    · intro q a ha
      obtain ⟨a1, a2, ⟨qa, ha1⟩, ⟨qb, ha2⟩, hwsum⟩ := arcsOf_rawProduct _ _ q a ha
      have h1 : a1.weight = 0 := arcsOf_accep_weight syms qa a1 ha1
      have h2 := nonnegW_arcs lm hw qb a2 ha2
      rw [hwsum, h1]
      linarith
    · intro q x hx
      obtain ⟨u, v, hu, hv, hxv⟩ := finalOf_rawProduct _ _ q x hx
      have h1 : u = 0 := finalOf_accep _ _ u hu
      have h2 := nonnegW_finals lm hw _ v hv
      rw [hxv, h1]
      linarith
  refine ⟨(c : ℝ) / M_LN2 / (syms.length : ℝ), ?_, ?_⟩
  · unfold score
    rw [htok]
    show Except.map (fun b => (b, rstrip line)) (tryScore (bits_per_char (accep syms) lm)) = _
    rw [bits_per_char_success syms lm q0 c hne hstart hcost]
    rfl
  · have hln : (0 : ℝ) ≤ M_LN2 := by
      rw [M_LN2]
      exact Real.log_nonneg one_le_two
    apply div_nonneg (div_nonneg (by exact_mod_cast h0) hln)
    positivity

/-- Witness for C4: the one-character line "a" against `lmA`, whose
weights are non-negative and which accepts the line. -/
theorem claim_c4_witness :
    tokenize .utf8 (rstrip ['a']) = some [97] ∧ nonnegW lmA = true ∧
    (intersect (accep [97]) lmA).start = some 0 ∧
    ∃ r : ℝ, score lmA .utf8 ['a'] = .ok (some r, rstrip ['a']) ∧ 0 ≤ r := by
  have hstart : (intersect (accep [97]) lmA).start = some 0 := by
    norm_num [intersect, rawProduct, shortestdistance, dist, accep, chainArcs, arcsOf,
      finalOf, prodArcs, numStates, lmA, List.range_succ, List.filterMap_cons]
  have hw : nonnegW lmA = true := by norm_num [nonnegW, lmA]
  exact ⟨by decide, hw, hstart,
    claim_c4 lmA .utf8 ['a'] [97] 0 (by decide) (by decide) hw hstart⟩

/-- C7: the token-type resolver passes "byte" and "utf8" through
unchanged; any other string is treated as a symbol-table path — a
successful read yields the loaded table, and a read failure (missing or
unparsable file) propagates and terminates the run. -/
theorem claim_c7 (read_text : List Char → Except PyErr SymTable) :
    parse_token_type read_text ("byte".toList) = .ok .byte ∧
    parse_token_type read_text ("utf8".toList) = .ok .utf8 ∧
    (∀ s tbl, s ≠ "byte".toList → s ≠ "utf8".toList → read_text s = .ok tbl →
      parse_token_type read_text s = .ok (.symbols tbl)) ∧
    (∀ s e, s ≠ "byte".toList → s ≠ "utf8".toList → read_text s = .error e →
      parse_token_type read_text s = .error e ∧
      ∀ (lm : WFst) (corpus : List (List Char)),
        mainRun read_text (.ok lm) s corpus = .error e) := by
  refine ⟨?_, ?_, ?_, ?_⟩
  · unfold parse_token_type
    rw [if_pos rfl]
  · unfold parse_token_type
    rw [if_neg (by decide), if_pos rfl]
  · intro s tbl h1 h2 hr
    unfold parse_token_type
    rw [if_neg h1, if_neg h2, hr]
    rfl
  · intro s e h1 h2 hr
    have hp : parse_token_type read_text s = .error e := by
      unfold parse_token_type
      rw [if_neg h1, if_neg h2, hr]
      rfl
    refine ⟨hp, fun lm corpus => ?_⟩
    unfold mainRun
    simp only [hp]

/-- Witness for C7 at concrete strings, a concrete reader, and a
concrete run. -/
theorem claim_c7_witness :
    parse_token_type (fun _ => .error .fileNotFound) ("byte".toList) = .ok .byte ∧
    parse_token_type (fun _ => .error .fileNotFound) ("utf8".toList) = .ok .utf8 ∧
    parse_token_type
        (fun p => if p = "tbl".toList then .ok [(['a'], 1)] else .error .fileNotFound)
        ("tbl".toList) = .ok (.symbols [(['a'], 1)]) ∧
    parse_token_type (fun _ => .error .fileNotFound) ("nope".toList) = .error .fileNotFound ∧
    mainRun (fun _ => .error .fileNotFound) (.ok lmA) ("nope".toList) [['a']] =
      .error .fileNotFound := by
  have h4 := (claim_c7 (fun _ => .error .fileNotFound)).2.2.2 ("nope".toList) .fileNotFound
    (by decide) (by decide) rfl
  refine ⟨(claim_c7 _).1, (claim_c7 _).2.1, ?_, h4.1, h4.2 lmA [['a']]⟩
  exact (claim_c7 _).2.2.1 ("tbl".toList) [(['a'], 1)] (by decide) (by decide) (by simp)

/-- C9: scoring is deterministic and free of shared state across calls:
a batch scoring A then B yields exactly the per-line results of scoring
each line alone, the reversed batch yields the same per-line results in
reversed positions, and scoring the same line twice yields identical
results. -/
theorem claim_c9 (lm : WFst) (tt : TokenType) (a b : List Char) :
    scoreLines lm tt [a, b] = [score lm tt a, score lm tt b] ∧
    scoreLines lm tt [b, a] = (scoreLines lm tt [a, b]).reverse ∧
    scoreLines lm tt [a, a] = [score lm tt a, score lm tt a] := by
  refine ⟨rfl, ?_, rfl⟩
  simp [scoreLines]

/-- Lemma: right-stripping absorbs any all-whitespace suffix. -/
theorem rstrip_append_ws (core ws : List Char) (h : ∀ c ∈ ws, isPySpace c = true) :
    rstrip (core ++ ws) = rstrip core := by
  unfold rstrip
  rw [List.reverse_append]
  have hws : ws.reverse.dropWhile isPySpace = [] := by
    rw [List.dropWhile_eq_nil_iff]
    intro c hc
    exact h c (List.mem_reverse.mp hc)
  rw [List.dropWhile_append]
  simp [hws]

/-- C10: the scorer right-strips all trailing whitespace (not only the
newline) before building the acceptor, the line text in an output row
is the fully right-stripped text, and two lines differing only in
trailing whitespace are scored identically. -/
theorem claim_c10 (lm : WFst) (tt : TokenType) :
    (∀ line r s, score lm tt line = .ok (r, s) → s = rstrip line) ∧
    (∀ core ws, (∀ c ∈ ws, isPySpace c = true) →
      score lm tt (core ++ ws) = score lm tt core) := by
  constructor
  · intro line r s h
    unfold score at h
    cases htok : tokenize tt (rstrip line) with
    | none =>
      simp only [htok] at h
      exact absurd h (by simp)
    | some syms =>
      simp only [htok] at h
      cases hts : tryScore (bits_per_char (accep syms) lm) with
      | error e => rw [hts] at h; simp [Except.map] at h
      | ok b =>
        rw [hts] at h
        simp only [Except.map] at h
        injection h with h
        exact (congrArg Prod.snd h).symm
  · intro core ws h
    unfold score
    rw [rstrip_append_ws core ws h]

/-- Witness for C10: a concrete row carries the stripped text, and a
line with trailing whitespace — including the non-ASCII no-break space
`\xa0` and the unit separator `\x1f`, which `str.rstrip` also strips —
scores identically to its stripped core. -/
theorem claim_c10_witness :
    score lmA .utf8 ['z', '\xa0'] = .ok (none, ['z']) ∧ ['z'] = rstrip ['z', '\xa0'] ∧
    (∀ c ∈ [' ', '\t', '\xa0', '\x1f'], isPySpace c = true) ∧
    score lmA .utf8 (['a'] ++ [' ', '\t', '\xa0', '\x1f']) = score lmA .utf8 ['a'] := by
  have h0 : score lmA .utf8 ['z', '\xa0'] = .ok (none, ['z']) := by rfl
  exact ⟨h0, (claim_c10 lmA .utf8).1 ['z', '\xa0'] none ['z'] h0, by decide,
    (claim_c10 lmA .utf8).2 ['a'] [' ', '\t', '\xa0', '\x1f'] (by decide)⟩

theorem score_success (lm : WFst) (tt : TokenType) (line : List Char) (syms : List Nat)
    (q0 : Nat) (c : ℚ)
    (htok : tokenize tt (rstrip line) = some syms) (hne : syms ≠ [])
    (hstart : (intersect (accep syms) lm).start = some q0)
    (hcost : shortestdistance (intersect (accep syms) lm) q0 = some c) :
    score lm tt line = .ok (some ((c : ℝ) / M_LN2 / (syms.length : ℝ)), rstrip line) := by
  unfold score
  rw [htok]
  show Except.map (fun b => (b, rstrip line)) (tryScore (bits_per_char (accep syms) lm)) = _
  rw [bits_per_char_success syms lm q0 c hne hstart hcost]
  rfl

/-- C8: over a three-line corpus whose per-line scoring raises nothing
and in which exactly one line fails composition (infinite score), the
sequential driver emits exactly two rows, in the original relative
order of the two surviving lines. -/
theorem claim_c8 (lm : WFst) (tt : TokenType) (l1 l2 l3 : List Char)
    (r1 r2 r3 : Option ℝ) (s1 s2 s3 : List Char)
    (h1 : score lm tt l1 = .ok (r1, s1)) (h2 : score lm tt l2 = .ok (r2, s2))
    (h3 : score lm tt l3 = .ok (r3, s3))
    (hone : ([r1, r2, r3].countP Option.isNone) = 1) :
    mainRows lm tt [l1, l2, l3] =
      .ok ([(r1, s1), (r2, s2), (r3, s3)].filterMap fun p => p.1.map fun v => (v, p.2)) ∧
    ([(r1, s1), (r2, s2), (r3, s3)].filterMap fun p => p.1.map fun v => (v, p.2)).length = 2 := by
  simp only [List.countP_cons, List.countP_nil] at hone
  cases r1 <;> cases r2 <;> cases r3 <;>
    simp_all [mainRows, List.filterMap_cons, Except.map]

/-- Witness for C8: the corpus "a", "z", "b" against `lmA`, where "z"
fails composition and the rows for "a" and "b" survive in order. -/
theorem claim_c8_witness :
    score lmA .utf8 ['a'] =
      .ok (some (((1 : ℚ) : ℝ) / M_LN2 / (([97] : List Nat).length : ℝ)), ['a']) ∧
    score lmA .utf8 ['z'] = .ok (none, ['z']) ∧
    score lmA .utf8 ['b'] =
      .ok (some (((2 : ℚ) : ℝ) / M_LN2 / (([98] : List Nat).length : ℝ)), ['b']) ∧
    mainRows lmA .utf8 [['a'], ['z'], ['b']] =
      .ok [(((1 : ℚ) : ℝ) / M_LN2 / (([97] : List Nat).length : ℝ), ['a']),
        (((2 : ℚ) : ℝ) / M_LN2 / (([98] : List Nat).length : ℝ), ['b'])] := by
  have hstartA : (intersect (accep [97]) lmA).start = some 0 := by
    norm_num [intersect, rawProduct, shortestdistance, dist, accep, chainArcs, arcsOf,
      finalOf, prodArcs, numStates, lmA, List.range_succ, List.filterMap_cons]
  have hcostA : shortestdistance (intersect (accep [97]) lmA) 0 = some 1 := by
    norm_num [intersect, rawProduct, shortestdistance, dist, accep, chainArcs, arcsOf,
      finalOf, prodArcs, numStates, lmA, List.range_succ, List.filterMap_cons]
  have hstartB : (intersect (accep [98]) lmA).start = some 0 := by
    norm_num [intersect, rawProduct, shortestdistance, dist, accep, chainArcs, arcsOf,
      finalOf, prodArcs, numStates, lmA, List.range_succ, List.filterMap_cons]
  have hcostB : shortestdistance (intersect (accep [98]) lmA) 0 = some 2 := by
    norm_num [intersect, rawProduct, shortestdistance, dist, accep, chainArcs, arcsOf,
      finalOf, prodArcs, numStates, lmA, List.range_succ, List.filterMap_cons]
  have h1 := score_success lmA .utf8 ['a'] [97] 0 1 (by decide) (by decide) hstartA hcostA
  have h3 := score_success lmA .utf8 ['b'] [98] 0 2 (by decide) (by decide) hstartB hcostB
  have h2 : score lmA .utf8 ['z'] = .ok (none, ['z']) := by rfl
  have h8 := claim_c8 lmA .utf8 ['a'] ['z'] ['b'] _ none _ _ ['z'] _ h1 h2 h3
    (by simp [List.countP_cons])
  refine ⟨h1, h2, h3, ?_⟩
  have := h8.1
  simpa [List.filterMap_cons] using this

end ScorePy
